import Mathlib

/-!
Verification of the traversal engine of xtensor's xiterator.hpp:
the odometer increment algorithm (increment_stepper), the strided
stepper (xstepper), the indexed stepper (xindexed_stepper) and the
iterator adaptor (xiterator), shallowly embedded in Lean.

Machine indices are modelled as Nat, cursors (C++ iterators into a
container's linear storage) as Int offsets into the container's data.
-/

/-- An action issued by the odometer algorithm on a stepper: step a
dimension (by one), reset a carried dimension, or move to the end. -/
inductive StepAction where
  | step (dim : Nat) : StepAction
  | reset (dim : Nat) : StepAction
  | to_end : StepAction
deriving DecidableEq

/-- The interface increment_stepper requires from a stepper: step a
dimension by one, reset a dimension, move to the end sentinel. -/
structure StepperOps (σ : Type) where
  step : σ → Nat → σ
  reset : σ → Nat → σ
  to_end : σ → σ

/-- Apply one recorded action to a stepper through its operations. -/
def applyAction {σ : Type} (ops : StepperOps σ) (st : σ) : StepAction → σ
  | StepAction.step d => ops.step st d
  | StepAction.reset d => ops.reset st d
  | StepAction.to_end => ops.to_end st

/-- Replay a list of recorded actions on a stepper, left to right. -/
def runActions {σ : Type} (ops : StepperOps σ) : σ → List StepAction → σ
  | st, [] => st
  | st, a :: rest => runActions ops (applyAction ops st a) rest

/-- The free stepper: it just records the actions issued to it. -/
def traceOps : StepperOps (List StepAction) :=
  ⟨fun t d => t ++ [StepAction.step d],
   fun t d => t ++ [StepAction.reset d],
   fun t => t ++ [StepAction.to_end]⟩

/-- The while loop of increment_stepper, with the loop counter i as
fuel: fuel i processes dimensions i-1, i-2, ... as the C++ loop does.
Mirrors: --i; if (++index[i] != shape[i]) step(i), return; else if
(i != 0) index[i] = 0, reset(i); after the loop, to_end(). -/
def inc_loop {σ : Type} (ops : StepperOps σ) (shape : List Nat) :
    σ → List Nat → Nat → σ × List Nat
  | st, index, 0 => (ops.to_end st, index)
  | st, index, i + 1 =>
    let v := index.getD i 0 + 1
    let index1 := index.set i v
    if v ≠ shape.getD i 0 then
      (ops.step st i, index1)
    else if i ≠ 0 then
      inc_loop ops shape (ops.reset st i) (index1.set i 0) i
    else
      (ops.to_end st, index1)

/-- increment_stepper(stepper, index, shape): one odometer increment,
returning the new stepper and the new index vector. -/
def increment_stepper {σ : Type} (ops : StepperOps σ) (st : σ)
    (index : List Nat) (shape : List Nat) : σ × List Nat :=
  inc_loop ops shape st index index.length

/-- A strided container as the stepper sees it: an identity (standing
for the C++ object's address), linear data, and per-dimension shape,
strides and backstrides. end() is position data.length. -/
structure Container where
  cid : Nat
  data : List Int
  shape : List Nat
  strides : List Nat
  backstrides : List Nat
deriving DecidableEq

/-- xstepper: borrowed container, cursor m_it into the container's
linear storage, and the rank-alignment offset. -/
structure xstepper where
  p_c : Container
  m_it : Int
  m_offset : Nat
deriving DecidableEq

/-- xstepper::operator*: the element addressed by the cursor. -/
def xstepper.deref (s : xstepper) : Int :=
  s.p_c.data.getD s.m_it.toNat 0

/-- xstepper::step(dim, n): if dim >= m_offset, advance the cursor by
n * strides[dim - m_offset]; otherwise do nothing. -/
def xstepper.step (s : xstepper) (dim : Nat) (n : Nat) : xstepper :=
  if dim ≥ s.m_offset then
    ⟨s.p_c, s.m_it + (n : Int) * (s.p_c.strides.getD (dim - s.m_offset) 0 : Int), s.m_offset⟩
  else s

/-- xstepper::step_back(dim, n): symmetric subtraction, same guard. -/
def xstepper.step_back (s : xstepper) (dim : Nat) (n : Nat) : xstepper :=
  if dim ≥ s.m_offset then
    ⟨s.p_c, s.m_it - (n : Int) * (s.p_c.strides.getD (dim - s.m_offset) 0 : Int), s.m_offset⟩
  else s

/-- xstepper::reset(dim): if dim >= m_offset, subtract
backstrides[dim - m_offset] from the cursor; otherwise do nothing. -/
def xstepper.reset (s : xstepper) (dim : Nat) : xstepper :=
  if dim ≥ s.m_offset then
    ⟨s.p_c, s.m_it - (s.p_c.backstrides.getD (dim - s.m_offset) 0 : Int), s.m_offset⟩
  else s

/-- xstepper::to_end(): cursor becomes the container's end position. -/
def xstepper.to_end (s : xstepper) : xstepper :=
  ⟨s.p_c, (s.p_c.data.length : Int), s.m_offset⟩

/-- xstepper::equal: same container, same cursor, same offset. -/
def xstepper.equal (a b : xstepper) : Bool :=
  decide (a.p_c = b.p_c) && decide (a.m_it = b.m_it) && decide (a.m_offset = b.m_offset)

/-- The StepperOps view of xstepper used by increment_stepper
(step is called with its default n = 1 there). -/
def xstepperOps : StepperOps xstepper :=
  ⟨fun s d => s.step d 1, fun s d => s.reset d, fun s => s.to_end⟩

/-- An expression as the indexed stepper sees it: an identity, its own
shape, and the element accessor element(index). -/
structure Expression where
  eid : Nat
  shape : List Nat
  elem : List Nat → Int

/-- xindexed_stepper: borrowed expression, explicit index vector sized
to the expression's own rank, and the rank-alignment offset. -/
structure xindexed_stepper where
  p_e : Expression
  m_index : List Nat
  m_offset : Nat

/-- xindexed_stepper::operator*: re-evaluates element(m_index). -/
def xindexed_stepper.deref (s : xindexed_stepper) : Int :=
  s.p_e.elem s.m_index

/-- xindexed_stepper::step(dim, n): if dim >= m_offset, add n to
m_index[dim - m_offset]; otherwise do nothing. -/
def xindexed_stepper.step (s : xindexed_stepper) (dim : Nat) (n : Nat) : xindexed_stepper :=
  if dim ≥ s.m_offset then
    ⟨s.p_e, s.m_index.set (dim - s.m_offset) (s.m_index.getD (dim - s.m_offset) 0 + n), s.m_offset⟩
  else s

/-- xindexed_stepper::step_back(dim, n): subtract n, same guard. -/
def xindexed_stepper.step_back (s : xindexed_stepper) (dim : Nat) (n : Nat) : xindexed_stepper :=
  if dim ≥ s.m_offset then
    ⟨s.p_e, s.m_index.set (dim - s.m_offset) (s.m_index.getD (dim - s.m_offset) 0 - n), s.m_offset⟩
  else s

/-- xindexed_stepper::reset(dim): if dim >= m_offset, zero
m_index[dim - m_offset]; otherwise do nothing. -/
def xindexed_stepper.reset (s : xindexed_stepper) (dim : Nat) : xindexed_stepper :=
  if dim ≥ s.m_offset then
    ⟨s.p_e, s.m_index.set (dim - s.m_offset) 0, s.m_offset⟩
  else s

/-- xindexed_stepper::to_end(): the index vector becomes the
expression's shape. -/
def xindexed_stepper.to_end (s : xindexed_stepper) : xindexed_stepper :=
  ⟨s.p_e, s.p_e.shape, s.m_offset⟩

/-- xindexed_stepper::equal: same expression identity, same index
vector, same offset. -/
def xindexed_stepper.equal (a b : xindexed_stepper) : Bool :=
  decide (a.p_e.eid = b.p_e.eid) && decide (a.m_index = b.m_index)
    && decide (a.m_offset = b.m_offset)

/-- The xindexed_stepper constructor: zero index sized to the
expression's own rank, then to_end() when the end flag is set. -/
def mkIndexed (e : Expression) (o : Nat) (isEnd : Bool) : xindexed_stepper :=
  let base : xindexed_stepper := ⟨e, List.replicate e.shape.length 0, o⟩
  if isEnd then base.to_end else base

/-- xiterator: a subiterator (stepper), the stored traversal shape and
the odometer index vector. -/
structure xiterator (It : Type) where
  m_it : It
  m_shape : List Nat
  m_index : List Nat
deriving DecidableEq

/-- The xiterator constructor: index vector zero-initialized, sized to
the shape. -/
def mkXIterator {It : Type} (it : It) (sh : List Nat) : xiterator It :=
  ⟨it, sh, List.replicate sh.length 0⟩

/-- xiterator::operator++: delegate to increment_stepper on the
subiterator, the index vector and the stored shape. -/
def xiterator.inc {It : Type} (ops : StepperOps It) (it : xiterator It) : xiterator It :=
  let r := increment_stepper ops it.m_it it.m_index it.m_shape
  ⟨r.1, it.m_shape, r.2⟩

/-- xiterator::equal: subiterator equality and shape equality; the
iterator's own index vector is not compared. -/
def xiterator.equal {It : Type} [DecidableEq It] (a b : xiterator It) : Bool :=
  decide (a.m_it = b.m_it) && decide (a.m_shape = b.m_shape)

/-- Row-major strides of a shape: stride of dimension i is the product
of the extents of the dimensions after i. -/
def rmStrides : List Nat → List Nat
  | [] => []
  | _ :: ss => ss.prod :: rmStrides ss

/-- Backstrides matching rmStrides: backstride i = stride i * (s i - 1). -/
def rmBackstrides (sh : List Nat) : List Nat :=
  List.zipWith (fun s p => p * (s - 1)) sh (rmStrides sh)

/-- The canonical row-major container of a given shape: data of length
shape.prod, row-major strides and matching backstrides. -/
def canonContainer (sh : List Nat) : Container :=
  ⟨0, (List.range sh.prod).map Int.ofNat, sh, rmStrides sh, rmBackstrides sh⟩

/-- A begin stepper over the canonical container: cursor 0, offset 0. -/
def beginStepper (sh : List Nat) : xstepper :=
  ⟨canonContainer sh, 0, 0⟩

/-- The begin iterator over the canonical container of a shape. -/
def beginIter (sh : List Nat) : xiterator xstepper :=
  mkXIterator (beginStepper sh) sh

/-- The independently end-constructed iterator: the stepper moved to
the container's end position by to_end(). -/
def endIter (sh : List Nat) : xiterator xstepper :=
  mkXIterator ((beginStepper sh).to_end) sh

/-- Row-major linearization of an index against a shape. -/
def lin : List Nat → List Nat → Nat
  | i :: is, _ :: ss => i * ss.prod + lin is ss
  | _, _ => 0

/-- The iterator over the canonical container positioned at a given
index: cursor = row-major linearization of the index. -/
def iterAt (sh ix : List Nat) : xiterator xstepper :=
  ⟨⟨canonContainer sh, (lin ix sh : Int), 0⟩, sh, ix⟩

/-- Count the dereferences a forward traversal performs before the
iterator compares equal to the end iterator (fuel-bounded while loop
of the standard begin/end idiom). -/
def countPositions (e : xiterator xstepper) : Nat → xiterator xstepper → Nat
  | 0, _ => 0
  | n + 1, it =>
    if xiterator.equal it e then 0
    else countPositions e n (xiterator.inc xstepperOps it) + 1

/-- The descending run of reset actions issued while carrying:
resetsDown lo n = [reset (lo+n-1), ..., reset (lo+1), reset lo]. -/
def resetsDown (lo : Nat) : Nat → List StepAction
  | 0 => []
  | n + 1 => StepAction.reset (lo + n) :: resetsDown lo n

/-- The first n index vectors visited from a starting index, following
the odometer increment. -/
def visitedIndices (sh : List Nat) : Nat → List Nat → List (List Nat)
  | 0, _ => []
  | n + 1, ix => ix :: visitedIndices sh n (increment_stepper traceOps [] ix sh).2

/-- n repeated single steps of a dimension. -/
def stepN (dim : Nat) : Nat → xstepper → xstepper
  | 0, st => st
  | n + 1, st => stepN dim n (st.step dim 1)

/-- n repeated single backward steps of a dimension. -/
def stepBackN (dim : Nat) : Nat → xstepper → xstepper
  | 0, st => st
  | n + 1, st => stepBackN dim n (st.step_back dim 1)

/-- Sum of the backstride entries in the window [lo, lo+n). -/
def bsumUp (bs : List Nat) : Nat → Nat → Nat
  | _, 0 => 0
  | lo, n + 1 => bs.getD lo 0 + bsumUp bs (lo + 1) n

/-- Iterated xiterator increment. -/
def incN : Nat → xiterator xstepper → xiterator xstepper
  | 0, it => it
  | n + 1, it => incN n (xiterator.inc xstepperOps it)

/-- The cursors of the first n positions of a traversal. -/
def cursors : Nat → xiterator xstepper → List Int
  | 0, _ => []
  | n + 1, it => it.m_it.m_it :: cursors n (xiterator.inc xstepperOps it)

/-- The concrete container of the C3 scenario: strides [3,1],
backstrides [6,2], shape [3,3], nine data elements. -/
def c3Container : Container :=
  ⟨0, (List.range 9).map Int.ofNat, [3, 3], [3, 1], [6, 2]⟩

/-- Begin iterator of the C3 scenario: cursor 0, zero index. -/
def c3Begin : xiterator xstepper :=
  mkXIterator (⟨c3Container, 0, 0⟩ : xstepper) [3, 3]

/-- End-constructed iterator of the C3 scenario. -/
def c3End : xiterator xstepper :=
  mkXIterator (xstepper.to_end ⟨c3Container, 0, 0⟩) [3, 3]

/-- A concrete rank-0 expression: empty shape, constant element. -/
def exprRank0 : Expression :=
  ⟨0, [], fun _ => 0⟩

/-- A concrete rank-1 expression of shape [2]. -/
def exprRank1 : Expression :=
  ⟨1, [2], fun _ => 0⟩

/-- Claim C3: over the container with strides [3,1], backstrides [6,2]
and shape [3,3], starting at cursor 0, the nine successive positions
have cursors 0,1,2,3,4,5,6,7,8 in that order, and the tenth position
(after nine increments) compares equal to the end-constructed
iterator. -/
theorem c3_scenario_cursor_trail :
    cursors 9 c3Begin = [0, 1, 2, 3, 4, 5, 6, 7, 8]
      ∧ xiterator.equal (incN 9 c3Begin) c3End = true := by
  constructor
  · decide
  · decide

/-- Claim C4: for the strided stepper, step(dim, n) adds
n * strides[dim - offset] to the cursor when dim ≥ offset and is the
identity otherwise; step_back subtracts under the same guard; and
reset(dim) subtracts backstrides[dim - offset] when dim ≥ offset and
is the identity otherwise. -/
theorem c4_xstepper_guarded_arithmetic (c : Container) (cur : Int) (o dim n : Nat) :
    (xstepper.step ⟨c, cur, o⟩ dim n =
      if dim ≥ o then (⟨c, cur + (n : Int) * (c.strides.getD (dim - o) 0 : Int), o⟩ : xstepper)
      else ⟨c, cur, o⟩)
    ∧ (xstepper.step_back ⟨c, cur, o⟩ dim n =
      if dim ≥ o then (⟨c, cur - (n : Int) * (c.strides.getD (dim - o) 0 : Int), o⟩ : xstepper)
      else ⟨c, cur, o⟩)
    ∧ (xstepper.reset ⟨c, cur, o⟩ dim =
      if dim ≥ o then (⟨c, cur - (c.backstrides.getD (dim - o) 0 : Int), o⟩ : xstepper)
      else ⟨c, cur, o⟩) := by
  refine ⟨?_, ?_, ?_⟩ <;> rfl

/-- Claim C10: xiterator equality is decided solely by subiterator
equality and shape equality; the adaptor's internal index vector is
not compared, so equal subiterator states over the same shape compare
equal even with different internal index vectors. -/
theorem c10_equal_ignores_index (ita itb : xstepper) (sha shb ixa ixb : List Nat) :
    (xiterator.equal (⟨ita, sha, ixa⟩ : xiterator xstepper) ⟨itb, shb, ixb⟩
      = (decide (ita = itb) && decide (sha = shb)))
    ∧ xiterator.equal (⟨ita, sha, ixa⟩ : xiterator xstepper) ⟨ita, sha, ixb⟩ = true := by
  refine ⟨rfl, ?_⟩
  simp [xiterator.equal]

/-- Claim C6: for the rank-0 shape, the begin iterator is not equal to
the end-constructed iterator, a single increment runs the odometer
loop zero times and issues exactly to_end(), after which the iterator
equals the end iterator; the traversal dereferences exactly one
element. -/
theorem c6_rank0_single_element :
    xiterator.equal (beginIter []) (endIter []) = false
      ∧ xiterator.equal (xiterator.inc xstepperOps (beginIter [])) (endIter []) = true
      ∧ increment_stepper traceOps [] [] [] = ([StepAction.to_end], [])
      ∧ countPositions (endIter []) 2 (beginIter []) = 1 := by
  refine ⟨?_, ?_, ?_, ?_⟩ <;> decide

/-- getD after set at the same (in-range) position. -/
theorem lgetD_set_self {α : Type} (l : List α) (i : Nat) (a d : α) (h : i < l.length) :
    (l.set i a).getD i d = a := by
  induction l generalizing i with
  | nil => simp at h
  | cons x xs ih =>
    cases i with
    | zero => rfl
    | succ n => simpa using ih n (by simpa using h)

/-- getD after set at a different position. -/
theorem lgetD_set_ne {α : Type} (l : List α) {i j : Nat} (a d : α) (h : i ≠ j) :
    (l.set i a).getD j d = l.getD j d := by
  induction l generalizing i j with
  | nil => simp
  | cons x xs ih =>
    cases i with
    | zero =>
      cases j with
      | zero => exact absurd rfl h
      | succ m => rfl
    | succ n =>
      cases j with
      | zero => rfl
      | succ m =>
        have hnm : n ≠ m := fun hc => h (by rw [hc])
        simpa using ih hnm

/-- getD through drop. -/
theorem lgetD_drop {α : Type} (l : List α) (m t : Nat) (d : α) :
    (l.drop m).getD t d = l.getD (m + t) d := by
  induction l generalizing m with
  | nil => simp
  | cons x xs ih =>
    cases m with
    | zero => simp
    | succ n =>
      have : n + 1 + t = (n + t) + 1 := by omega
      rw [this]
      simp [ih n]

/-- An in-range drop is its first element consed on the further drop. -/
theorem ldrop_eq_getD_cons {α : Type} (l : List α) (i : Nat) (d : α) (h : i < l.length) :
    l.drop i = l.getD i d :: l.drop (i + 1) := by
  induction l generalizing i with
  | nil => simp at h
  | cons x xs ih =>
    cases i with
    | zero => rfl
    | succ n => simpa using ih n (by simpa using h)

/-- Setting at a position ≥ j does not change the first j elements. -/
theorem ltake_set_ge {α : Type} (l : List α) {i j : Nat} (a : α) (h : j ≤ i) :
    (l.set i a).take j = l.take j := by
  induction l generalizing i j with
  | nil => simp
  | cons x xs ih =>
    cases i with
    | zero =>
      cases j with
      | zero => simp
      | succ m => omega
    | succ n =>
      cases j with
      | zero => simp
      | succ m => simpa using ih (show m ≤ n by omega)

/-- set written as take ++ value :: drop. -/
theorem lset_eq_take_cons {α : Type} (l : List α) (i : Nat) (a : α) (h : i < l.length) :
    l.set i a = l.take i ++ a :: l.drop (i + 1) := by
  induction l generalizing i with
  | nil => simp at h
  | cons x xs ih =>
    cases i with
    | zero => rfl
    | succ n => simpa using ih n (by simpa using h)

/-- Dropping up to an in-range set position exposes the new value. -/
theorem ldrop_set_self {α : Type} (l : List α) (i : Nat) (a : α) (h : i < l.length) :
    (l.set i a).drop i = a :: l.drop (i + 1) := by
  induction l generalizing i with
  | nil => simp at h
  | cons x xs ih =>
    cases i with
    | zero => rfl
    | succ n => simpa using ih n (by simpa using h)

/-- Unfolding the odometer loop at zero fuel: the loop body never runs
and to_end() is issued. -/
theorem inc_loop_zero {σ : Type} (ops : StepperOps σ) (shape : List Nat)
    (st : σ) (index : List Nat) :
    inc_loop ops shape st index 0 = (ops.to_end st, index) := rfl

/-- Unfolding one iteration of the odometer loop. -/
theorem inc_loop_succ {σ : Type} (ops : StepperOps σ) (shape : List Nat)
    (st : σ) (index : List Nat) (i : Nat) :
    inc_loop ops shape st index (i + 1) =
      if index.getD i 0 + 1 ≠ shape.getD i 0 then
        (ops.step st i, index.set i (index.getD i 0 + 1))
      else if i ≠ 0 then
        inc_loop ops shape (ops.reset st i) ((index.set i (index.getD i 0 + 1)).set i 0) i
      else
        (ops.to_end st, index.set i (index.getD i 0 + 1)) := rfl

/-- The trace stepper only appends: a run started from an accumulated
trace equals the accumulated trace followed by a run from nil. -/
theorem inc_loop_trace_acc (shape : List Nat) :
    ∀ (fuel : Nat) (index : List Nat) (st : List StepAction),
      inc_loop traceOps shape st index fuel =
        (st ++ (inc_loop traceOps shape [] index fuel).1,
         (inc_loop traceOps shape [] index fuel).2) := by
  intro fuel
  induction fuel with
  | zero => intro index st; simp [inc_loop_zero, traceOps]
  | succ i ih =>
    intro index st
    by_cases h : index.getD i 0 + 1 = shape.getD i 0
    · by_cases hi : i = 0
      · subst hi
        rw [inc_loop_succ, inc_loop_succ, if_neg (not_not_intro h),
          if_neg (not_not_intro h)]
        simp [traceOps]
      · rw [inc_loop_succ, inc_loop_succ, if_neg (not_not_intro h),
          if_neg (not_not_intro h), if_pos hi, if_pos hi]
        rw [ih ((index.set i (index.getD i 0 + 1)).set i 0) (traceOps.reset st i),
          ih ((index.set i (index.getD i 0 + 1)).set i 0) (traceOps.reset [] i)]
        simp [traceOps]
    · rw [inc_loop_succ, inc_loop_succ, if_pos h, if_pos h]
      simp [traceOps]

/-- The odometer loop on an arbitrary stepper replays, through the
stepper's operations, exactly the actions the trace stepper records;
the index result is the same. -/
theorem inc_loop_run (shape : List Nat) :
    ∀ (fuel : Nat) {σ : Type} (ops : StepperOps σ) (st : σ) (index : List Nat),
      inc_loop ops shape st index fuel =
        (runActions ops st (inc_loop traceOps shape [] index fuel).1,
         (inc_loop traceOps shape [] index fuel).2) := by
  intro fuel
  induction fuel with
  | zero =>
    intro σ ops st index
    simp [inc_loop_zero, traceOps, runActions, applyAction]
  | succ i ih =>
    intro σ ops st index
    by_cases h : index.getD i 0 + 1 = shape.getD i 0
    · by_cases hi : i = 0
      · subst hi
        rw [inc_loop_succ, inc_loop_succ, if_neg (not_not_intro h),
          if_neg (not_not_intro h)]
        simp [traceOps, runActions, applyAction]
      · rw [inc_loop_succ, inc_loop_succ, if_neg (not_not_intro h),
          if_neg (not_not_intro h), if_pos hi, if_pos hi]
        rw [ih ops (ops.reset st i) ((index.set i (index.getD i 0 + 1)).set i 0)]
        rw [inc_loop_trace_acc shape i ((index.set i (index.getD i 0 + 1)).set i 0)
          (traceOps.reset [] i)]
        simp [traceOps, runActions, applyAction]
    · rw [inc_loop_succ, inc_loop_succ, if_pos h, if_pos h]
      simp [traceOps, runActions, applyAction]

/-- When some dimension j below the loop start does not carry and all
dimensions above it do, the loop resets dimensions i-1 down to j+1,
steps dimension j, zeroes the carried positions and increments
position j. -/
theorem inc_loop_stop (shape : List Nat) (j : Nat) :
    ∀ i, j + 1 ≤ i → ∀ (index : List Nat) (st : List StepAction),
      i ≤ index.length →
      index.getD j 0 + 1 ≠ shape.getD j 0 →
      (∀ t, j < t → t < i → index.getD t 0 + 1 = shape.getD t 0) →
      inc_loop traceOps shape st index i =
        (st ++ resetsDown (j + 1) (i - 1 - j) ++ [StepAction.step j],
         index.take j ++ (index.getD j 0 + 1) ::
           (List.replicate (i - 1 - j) 0 ++ index.drop i)) := by
  intro i hi
  induction i, hi using Nat.le_induction with
  | base =>
    intro index st hlen hne _hfull
    rw [inc_loop_succ, if_pos hne]
    have h0 : j + 1 - 1 - j = 0 := by omega
    rw [h0]
    have hj : j < index.length := by omega
    rw [lset_eq_take_cons index j _ hj]
    simp [resetsDown, traceOps]
  | succ i hji ih =>
    intro index st hlen hne hfull
    have hij : j < i := by omega
    have hfi : index.getD i 0 + 1 = shape.getD i 0 := hfull i hij (by omega)
    have hi0 : i ≠ 0 := by omega
    rw [inc_loop_succ, if_neg (not_not_intro hfi), if_pos hi0]
    rw [List.set_set]
    have hlen2 : i ≤ (index.set i 0).length := by
      rw [List.length_set]; omega
    have hne2 : (index.set i 0).getD j 0 + 1 ≠ shape.getD j 0 := by
      rw [lgetD_set_ne index 0 0 (by omega)]; exact hne
    have hfull2 : ∀ t, j < t → t < i → (index.set i 0).getD t 0 + 1 = shape.getD t 0 := by
      intro t ht hti
      rw [lgetD_set_ne index 0 0 (by omega)]
      exact hfull t ht (by omega)
    rw [ih (index.set i 0) (traceOps.reset st i) hlen2 hne2 hfull2]
    have e1 : (index.set i 0).take j = index.take j :=
      ltake_set_ge index 0 (by omega)
    have e2 : (index.set i 0).getD j 0 = index.getD j 0 :=
      lgetD_set_ne index 0 0 (by omega)
    have e3 : (index.set i 0).drop i = 0 :: index.drop (i + 1) :=
      ldrop_set_self index i 0 (by omega)
    rw [e1, e2, e3]
    have e4 : i + 1 - 1 - j = (i - 1 - j) + 1 := by omega
    have e5 : j + 1 + (i - 1 - j) = i := by omega
    rw [e4]
    have e6 : resetsDown (j + 1) ((i - 1 - j) + 1)
        = StepAction.reset i :: resetsDown (j + 1) (i - 1 - j) := by
      simp only [resetsDown]
      rw [e5]
    have e7 : List.replicate ((i - 1 - j) + 1) (0 : Nat) ++ index.drop (i + 1)
        = List.replicate (i - 1 - j) 0 ++ (0 :: index.drop (i + 1)) := by
      rw [List.replicate_succ']
      simp
    rw [e6, e7]
    simp [traceOps, List.append_assoc]

/-- When every dimension below the loop start carries, the loop resets
dimensions i-1 down to 1, leaves position 0 incremented to its extent,
and issues to_end(). -/
theorem inc_loop_full (shape : List Nat) :
    ∀ i, 1 ≤ i → ∀ (index : List Nat) (st : List StepAction),
      i ≤ index.length →
      (∀ t, t < i → index.getD t 0 + 1 = shape.getD t 0) →
      inc_loop traceOps shape st index i =
        (st ++ resetsDown 1 (i - 1) ++ [StepAction.to_end],
         (index.getD 0 0 + 1) :: (List.replicate (i - 1) 0 ++ index.drop i)) := by
  intro i hi
  induction i, hi using Nat.le_induction with
  | base =>
    intro index st hlen hfull
    have hf0 : index.getD 0 0 + 1 = shape.getD 0 0 := hfull 0 (by omega)
    rw [inc_loop_succ, if_neg (not_not_intro hf0), if_neg (fun h => h rfl)]
    rw [lset_eq_take_cons index 0 _ (by omega)]
    have h0 : (1 : Nat) - 1 = 0 := rfl
    rw [h0]
    simp [resetsDown, traceOps]
  | succ i hi1 ih =>
    intro index st hlen hfull
    have hfi : index.getD i 0 + 1 = shape.getD i 0 := hfull i (by omega)
    have hi0 : i ≠ 0 := by omega
    rw [inc_loop_succ, if_neg (not_not_intro hfi), if_pos hi0, List.set_set]
    have hlen2 : i ≤ (index.set i 0).length := by
      rw [List.length_set]; omega
    have hfull2 : ∀ t, t < i → (index.set i 0).getD t 0 + 1 = shape.getD t 0 := by
      intro t ht
      rw [lgetD_set_ne index 0 0 (by omega)]
      exact hfull t (by omega)
    rw [ih (index.set i 0) (traceOps.reset st i) hlen2 hfull2]
    have e2 : (index.set i 0).getD 0 0 = index.getD 0 0 :=
      lgetD_set_ne index 0 0 (by omega)
    have e3 : (index.set i 0).drop i = 0 :: index.drop (i + 1) :=
      ldrop_set_self index i 0 (by omega)
    rw [e2, e3]
    have e4 : i + 1 - 1 = (i - 1) + 1 := by omega
    have e5 : 1 + (i - 1) = i := by omega
    rw [e4]
    have e6 : resetsDown 1 ((i - 1) + 1) = StepAction.reset i :: resetsDown 1 (i - 1) := by
      simp only [resetsDown]
      rw [e5]
    have e7 : List.replicate ((i - 1) + 1) (0 : Nat) ++ index.drop (i + 1)
        = List.replicate (i - 1) 0 ++ (0 :: index.drop (i + 1)) := by
      rw [List.replicate_succ']
      simp
    rw [e6, e7]
    simp [traceOps, List.append_assoc]

/-- Claim C1: one odometer increment (i) acts on an arbitrary stepper
by replaying exactly the actions recorded by the trace stepper; (ii)
when some dimension j does not carry while every inner dimension does,
it issues reset(t) for each carried dimension t = k-1 down to j+1,
then step(j), and the index advances to its row-major successor
(carried dimensions zeroed, position j incremented); (iii) when every
dimension carries it issues reset(t) for t = k-1 down to 1 and then
to_end(); (iv) for shape [2,3] the visited index sequence from (0,0)
is (0,0),(0,1),(0,2),(1,0),(1,1),(1,2). -/
theorem c1_odometer_increment (index shape : List Nat)
    (hlen : index.length = shape.length)
    (_hvalid : ∀ t, t < shape.length → index.getD t 0 < shape.getD t 0) :
    (∀ (σ : Type) (ops : StepperOps σ) (st : σ),
        increment_stepper ops st index shape =
          (runActions ops st (increment_stepper traceOps [] index shape).1,
           (increment_stepper traceOps [] index shape).2))
    ∧ (∀ j, j < shape.length → index.getD j 0 + 1 ≠ shape.getD j 0 →
        (∀ t, j < t → t < shape.length → index.getD t 0 + 1 = shape.getD t 0) →
        increment_stepper traceOps [] index shape =
          (resetsDown (j + 1) (shape.length - 1 - j) ++ [StepAction.step j],
           index.take j ++ (index.getD j 0 + 1) ::
             List.replicate (shape.length - 1 - j) 0))
    ∧ ((∀ t, t < shape.length → index.getD t 0 + 1 = shape.getD t 0) →
        0 < shape.length →
        increment_stepper traceOps [] index shape =
          (resetsDown 1 (shape.length - 1) ++ [StepAction.to_end],
           (index.getD 0 0 + 1) :: List.replicate (shape.length - 1) 0))
    ∧ visitedIndices [2, 3] 6 [0, 0]
        = [[0, 0], [0, 1], [0, 2], [1, 0], [1, 1], [1, 2]] := by
  refine ⟨?_, ?_, ?_, by decide⟩
  · intro σ ops st
    exact inc_loop_run shape index.length ops st index
  · intro j hj hne hfull
    have h := inc_loop_stop shape j index.length (by omega) index []
      (le_refl index.length) hne (fun t ht hti => hfull t ht (by omega))
    show inc_loop traceOps shape [] index index.length = _
    rw [h]
    simp [hlen, List.drop_length]
  · intro hfull hpos
    have h := inc_loop_full shape index.length (by omega) index []
      (le_refl index.length) (fun t ht => hfull t (by omega))
    show inc_loop traceOps shape [] index index.length = _
    rw [h]
    simp [hlen, List.drop_length]

/-- Witness for C1 at index [0,2] and shape [2,3]: dimension 1 carries
and dimension 0 does not, so the actions are reset 1 then step 0, and
the index advances to [1,0]. -/
theorem c1_odometer_increment_witness :
    (([0, 2] : List Nat).length = ([2, 3] : List Nat).length)
    ∧ (∀ t, t < ([2, 3] : List Nat).length →
        ([0, 2] : List Nat).getD t 0 < ([2, 3] : List Nat).getD t 0)
    ∧ increment_stepper traceOps [] [0, 2] [2, 3]
        = ([StepAction.reset 1, StepAction.step 0], [1, 0]) := by
  refine ⟨rfl, by decide, ?_⟩
  have h := (c1_odometer_increment [0, 2] [2, 3] rfl (by decide)).2.1 0
    (by decide) (by decide)
    (by
      intro t h1 h2
      have h2' : t < 2 := by simpa using h2
      have ht : t = 1 := by omega
      subst ht
      decide)
  rw [h]
  decide

/-- getD on the left part of an append. -/
theorem lgetD_append_left {α : Type} (A B : List α) (t : Nat) (d : α) (h : t < A.length) :
    (A ++ B).getD t d = A.getD t d := by
  induction A generalizing t with
  | nil => simp at h
  | cons x xs ih =>
    cases t with
    | zero => rfl
    | succ n => simpa using ih n (by simpa using h)

/-- getD on the right part of an append. -/
theorem lgetD_append_right {α : Type} (A B : List α) (r : Nat) (d : α) :
    (A ++ B).getD (A.length + r) d = B.getD r d := by
  induction A with
  | nil => simp
  | cons x xs ih =>
    have : x :: xs ++ B = x :: (xs ++ B) := rfl
    rw [this]
    have hl : (x :: xs).length + r = (xs.length + r) + 1 := by
      simp; omega
    rw [hl]
    simpa using ih

/-- getD through take, below the cut. -/
theorem lgetD_take {α : Type} (l : List α) (t j : Nat) (d : α) (h : t < j) :
    (l.take j).getD t d = l.getD t d := by
  induction l generalizing t j with
  | nil => simp
  | cons x xs ih =>
    cases j with
    | zero => omega
    | succ m =>
      cases t with
      | zero => rfl
      | succ n => simpa using ih n m (by omega)

/-- getD of a zero replicate is zero. -/
theorem lgetD_replicate_zero (n t : Nat) :
    (List.replicate n (0 : Nat)).getD t 0 = 0 := by
  induction n generalizing t with
  | zero => simp
  | succ m ih =>
    cases t with
    | zero => rfl
    | succ r => simp [List.replicate_succ, ih r]

/-- Linearization of an append splits multiplicatively. -/
theorem lin_append (A : List Nat) :
    ∀ (SA B SB : List Nat), A.length = SA.length →
      lin (A ++ B) (SA ++ SB) = lin A SA * SB.prod + lin B SB := by
  induction A with
  | nil =>
    intro SA B SB h
    have : SA = [] := by
      cases SA with
      | nil => rfl
      | cons s ss => simp at h
    subst this
    simp [lin]
  | cons a as ih =>
    intro SA B SB h
    cases SA with
    | nil => simp at h
    | cons s ss =>
      have hlen : as.length = ss.length := by simpa using h
      have : (a :: as) ++ B = a :: (as ++ B) := rfl
      rw [this]
      have : (s :: ss) ++ SB = s :: (ss ++ SB) := rfl
      rw [this]
      show a * (ss ++ SB).prod + lin (as ++ B) (ss ++ SB) = _
      rw [List.prod_append, ih ss B SB hlen]
      show _ = (a * ss.prod + lin as ss) * SB.prod + lin B SB
      ring

/-- Linearization of an all-zero index is zero. -/
theorem lin_replicate_zero : ∀ (n : Nat) (sh : List Nat),
    lin (List.replicate n 0) sh = 0 := by
  intro n
  induction n with
  | zero => intro sh; rfl
  | succ m ih =>
    intro sh
    cases sh with
    | nil => rfl
    | cons s ss =>
      show 0 * ss.prod + lin (List.replicate m 0) ss = 0
      rw [ih ss]
      simp

/-- An index that is one below the shape in every position linearizes
to the product minus one. -/
theorem full_lin : ∀ (T ST : List Nat), T.length = ST.length →
    (∀ t, t < ST.length → T.getD t 0 + 1 = ST.getD t 0) →
    lin T ST + 1 = ST.prod := by
  intro T
  induction T with
  | nil =>
    intro ST h _
    have : ST = [] := by
      cases ST with
      | nil => rfl
      | cons s ss => simp at h
    subst this
    rfl
  | cons x xs ih =>
    intro ST h hfull
    cases ST with
    | nil => simp at h
    | cons s ss =>
      have hlen : xs.length = ss.length := by simpa using h
      have h0 : x + 1 = s := by simpa using hfull 0 (by simp)
      have htail : ∀ t, t < ss.length → xs.getD t 0 + 1 = ss.getD t 0 := by
        intro t ht
        simpa using hfull (t + 1) (by simpa using ht)
      show x * ss.prod + lin xs ss + 1 = (s :: ss).prod
      rw [List.prod_cons, ← h0, Nat.add_assoc, ih ss hlen htail]
      ring

/-- A componentwise valid index linearizes strictly below the shape
product. -/
theorem lin_lt_prod : ∀ (ix sh : List Nat), ix.length = sh.length →
    (∀ t, t < sh.length → ix.getD t 0 < sh.getD t 0) →
    lin ix sh < sh.prod := by
  intro ix
  induction ix with
  | nil =>
    intro sh h _
    have : sh = [] := by
      cases sh with
      | nil => rfl
      | cons s ss => simp at h
    subst this
    simp [lin]
  | cons i is ih =>
    intro sh h hvalid
    cases sh with
    | nil => simp at h
    | cons s ss =>
      have hlen : is.length = ss.length := by simpa using h
      have h0 : i < s := by simpa using hvalid 0 (by simp)
      have htail : ∀ t, t < ss.length → is.getD t 0 < ss.getD t 0 := by
        intro t ht
        simpa using hvalid (t + 1) (by simpa using ht)
      have hrec : lin is ss < ss.prod := ih ss hlen htail
      show i * ss.prod + lin is ss < (s :: ss).prod
      rw [List.prod_cons]
      calc i * ss.prod + lin is ss < i * ss.prod + ss.prod := by omega
        _ = (i + 1) * ss.prod := by ring
        _ ≤ s * ss.prod := Nat.mul_le_mul_right _ (by omega)

/-- The row-major stride of dimension t is the product of the extents
after t. -/
theorem rmStrides_getD : ∀ (sh : List Nat) (t : Nat), t < sh.length →
    (rmStrides sh).getD t 0 = (sh.drop (t + 1)).prod := by
  intro sh
  induction sh with
  | nil => intro t ht; simp at ht
  | cons s ss ih =>
    intro t ht
    cases t with
    | zero => rfl
    | succ n =>
      show (rmStrides ss).getD n 0 = _
      rw [ih n (by simpa using ht)]
      rfl

/-- The row-major backstride of dimension t is its stride times
(extent - 1). -/
theorem rmBackstrides_getD : ∀ (sh : List Nat) (t : Nat), t < sh.length →
    (rmBackstrides sh).getD t 0 = (sh.drop (t + 1)).prod * (sh.getD t 0 - 1) := by
  intro sh
  induction sh with
  | nil => intro t ht; simp at ht
  | cons s ss ih =>
    intro t ht
    cases t with
    | zero => rfl
    | succ n =>
      show (rmBackstrides ss).getD n 0 = _
      rw [ih n (by simpa using ht)]
      rfl

/-- The sum of a backstride window, extended on the right. -/
theorem bsumUp_succ (bs : List Nat) : ∀ (n lo : Nat),
    bsumUp bs lo (n + 1) = bsumUp bs lo n + bs.getD (lo + n) 0 := by
  intro n
  induction n with
  | zero => intro lo; simp [bsumUp]
  | succ m ih =>
    intro lo
    show bs.getD lo 0 + bsumUp bs (lo + 1) (m + 1) = _
    rw [ih (lo + 1)]
    show _ = (bs.getD lo 0 + bsumUp bs (lo + 1) m) + bs.getD (lo + (m + 1)) 0
    have : lo + 1 + m = lo + (m + 1) := by omega
    rw [this]
    ring

/-- Telescoping identity: over dimensions with positive extents, the
suffix product from lo equals one plus the summed backstrides of the
window from lo to the end. -/
theorem rm_telescope (sh : List Nat) : ∀ (n lo : Nat), lo + n = sh.length →
    (∀ u, lo ≤ u → u < sh.length → 1 ≤ sh.getD u 0) →
    (sh.drop lo).prod = 1 + bsumUp (rmBackstrides sh) lo n := by
  intro n
  induction n with
  | zero =>
    intro lo hlen _
    have : lo = sh.length := by omega
    subst this
    simp [List.drop_length, bsumUp]
  | succ m ih =>
    intro lo hlen hpos
    have hlo : lo < sh.length := by omega
    rw [ldrop_eq_getD_cons sh lo 0 hlo, List.prod_cons]
    have hrec : (sh.drop (lo + 1)).prod = 1 + bsumUp (rmBackstrides sh) (lo + 1) m :=
      ih (lo + 1) (by omega) (fun u hu1 hu2 => hpos u (by omega) hu2)
    have hbs : (rmBackstrides sh).getD lo 0
        = (sh.drop (lo + 1)).prod * (sh.getD lo 0 - 1) :=
      rmBackstrides_getD sh lo hlo
    show sh.getD lo 0 * (sh.drop (lo + 1)).prod
        = 1 + ((rmBackstrides sh).getD lo 0 + bsumUp (rmBackstrides sh) (lo + 1) m)
    rw [hbs]
    have hs : 1 ≤ sh.getD lo 0 := hpos lo (by omega) hlo
    obtain ⟨q, hq⟩ : ∃ q, sh.getD lo 0 = q + 1 := ⟨sh.getD lo 0 - 1, by omega⟩
    rw [hq]
    have hq1 : q + 1 - 1 = q := by omega
    rw [hq1, hrec]
    ring

/-- Replaying an appended action list is sequential replay. -/
theorem runActions_append {σ : Type} (ops : StepperOps σ) :
    ∀ (l1 l2 : List StepAction) (st : σ),
      runActions ops st (l1 ++ l2) = runActions ops (runActions ops st l1) l2 := by
  intro l1
  induction l1 with
  | nil => intro l2 st; rfl
  | cons a rest ih =>
    intro l2 st
    show runActions ops (applyAction ops st a) (rest ++ l2) = _
    rw [ih l2 (applyAction ops st a)]
    rfl

/-- Replaying a descending run of resets on an offset-0 strided
stepper subtracts the summed backstride window from the cursor. -/
theorem resets_cursor (c : Container) : ∀ (n lo : Nat) (cur : Int),
    runActions xstepperOps ⟨c, cur, 0⟩ (resetsDown lo n)
      = ⟨c, cur - (bsumUp c.backstrides lo n : Int), 0⟩ := by
  intro n
  induction n with
  | zero => intro lo cur; simp [resetsDown, runActions, bsumUp]
  | succ m ih =>
    intro lo cur
    show runActions xstepperOps
        (applyAction xstepperOps ⟨c, cur, 0⟩ (StepAction.reset (lo + m)))
        (resetsDown lo m) = _
    have happ : applyAction xstepperOps ⟨c, cur, 0⟩ (StepAction.reset (lo + m))
        = ⟨c, cur - (c.backstrides.getD (lo + m) 0 : Int), 0⟩ := by
      show xstepper.reset ⟨c, cur, 0⟩ (lo + m) = _
      rw [xstepper.reset, if_pos (Nat.zero_le _)]
      simp
    rw [happ, ih lo]
    rw [bsumUp_succ]
    congr 1
    push_cast
    ring

/-- The canonical container's data has length the shape product. -/
theorem canon_data_length (sh : List Nat) :
    (canonContainer sh).data.length = sh.prod := by
  show ((List.range sh.prod).map Int.ofNat).length = sh.prod
  rw [List.length_map, List.length_range]

/-- Unfolding lin on a cons pair. -/
theorem lin_cons (x s : Nat) (T ST : List Nat) :
    lin (x :: T) (s :: ST) = x * ST.prod + lin T ST := rfl

/-- The row-major successor (position j incremented, inner positions
zeroed) linearizes to one more than the original index. -/
theorem lin_succ_at (sh ix : List Nat) (j : Nat) (hlen : ix.length = sh.length)
    (hj : j < sh.length)
    (hfull : ∀ t, j < t → t < sh.length → ix.getD t 0 + 1 = sh.getD t 0) :
    lin (ix.take j ++ (ix.getD j 0 + 1) :: List.replicate (sh.length - 1 - j) 0) sh
      = lin ix sh + 1 := by
  have hjx : j < ix.length := by omega
  have hsh : sh = sh.take j ++ sh.getD j 0 :: sh.drop (j + 1) := by
    conv_lhs => rw [← List.take_append_drop j sh, ldrop_eq_getD_cons sh j 0 hj]
  have hix : ix = ix.take j ++ ix.getD j 0 :: ix.drop (j + 1) := by
    conv_lhs => rw [← List.take_append_drop j ix, ldrop_eq_getD_cons ix j 0 hjx]
  have hlentake : (ix.take j).length = (sh.take j).length := by
    rw [List.length_take, List.length_take]
    omega
  have hlendrop : (ix.drop (j + 1)).length = (sh.drop (j + 1)).length := by
    rw [List.length_drop, List.length_drop, hlen]
  have htail : ∀ r, r < (sh.drop (j + 1)).length →
      (ix.drop (j + 1)).getD r 0 + 1 = (sh.drop (j + 1)).getD r 0 := by
    intro r hr
    rw [List.length_drop] at hr
    rw [lgetD_drop, lgetD_drop]
    exact hfull (j + 1 + r) (by omega) (by omega)
  have h3 : lin (ix.drop (j + 1)) (sh.drop (j + 1)) + 1 = (sh.drop (j + 1)).prod :=
    full_lin _ _ hlendrop htail
  have h1 : lin ix sh
      = lin (ix.take j) (sh.take j) * (sh.getD j 0 * (sh.drop (j + 1)).prod)
        + (ix.getD j 0 * (sh.drop (j + 1)).prod + lin (ix.drop (j + 1)) (sh.drop (j + 1))) := by
    conv_lhs => rw [hix, hsh]
    rw [lin_append (ix.take j) (sh.take j) _ _ hlentake, lin_cons, List.prod_cons]
  have h2 : lin (ix.take j ++ (ix.getD j 0 + 1) :: List.replicate (sh.length - 1 - j) 0) sh
      = lin (ix.take j) (sh.take j) * (sh.getD j 0 * (sh.drop (j + 1)).prod)
        + ((ix.getD j 0 + 1) * (sh.drop (j + 1)).prod + 0) := by
    conv_lhs => rw [hsh]
    rw [lin_append (ix.take j) (sh.take j) _ _ hlentake, lin_cons, List.prod_cons,
      lin_replicate_zero]
  rw [h1, h2, ← h3]
  ring

/-- The row-major successor at a non-carrying position j is again a
valid index of the same rank. -/
theorem succ_index_valid (sh ix : List Nat) (j : Nat) (hlen : ix.length = sh.length)
    (hvalid : ∀ t, t < sh.length → ix.getD t 0 < sh.getD t 0)
    (hj : j < sh.length) (hne : ix.getD j 0 + 1 ≠ sh.getD j 0) :
    (ix.take j ++ (ix.getD j 0 + 1) :: List.replicate (sh.length - 1 - j) 0).length
        = sh.length
    ∧ (∀ t, t < sh.length →
        (ix.take j ++ (ix.getD j 0 + 1) :: List.replicate (sh.length - 1 - j) 0).getD t 0
          < sh.getD t 0) := by
  have hjx : j < ix.length := by omega
  have hlentake : (ix.take j).length = j := by
    rw [List.length_take]
    omega
  constructor
  · rw [List.length_append, hlentake]
    simp only [List.length_cons, List.length_replicate]
    omega
  · intro t ht
    rcases Nat.lt_trichotomy t j with hlt | heq | hgt
    · rw [lgetD_append_left _ _ _ _ (by rw [hlentake]; omega), lgetD_take ix t j 0 hlt]
      exact hvalid t ht
    · subst heq
      have h0 := lgetD_append_right (ix.take t)
        ((ix.getD t 0 + 1) :: List.replicate (sh.length - 1 - t) 0) 0 0
      rw [hlentake] at h0
      simp only [Nat.add_zero, List.getD_cons_zero] at h0
      rw [h0]
      have hv := hvalid t ht
      omega
    · obtain ⟨r, hrr⟩ : ∃ r, t - j = r + 1 := ⟨t - j - 1, by omega⟩
      have h0 := lgetD_append_right (ix.take j)
        ((ix.getD j 0 + 1) :: List.replicate (sh.length - 1 - j) 0) (r + 1) 0
      rw [hlentake] at h0
      have hidx : j + (r + 1) = t := by omega
      rw [hidx] at h0
      rw [h0]
      simp only [List.getD_cons_succ]
      rw [lgetD_replicate_zero]
      have := hvalid t ht
      omega

/-- The canonical container's strides are the row-major strides. -/
theorem canon_strides (sh : List Nat) : (canonContainer sh).strides = rmStrides sh := rfl

/-- The canonical container's backstrides are the row-major
backstrides. -/
theorem canon_backstrides (sh : List Nat) :
    (canonContainer sh).backstrides = rmBackstrides sh := rfl

/-- step on an offset-0 stepper adds n * strides[dim] to the cursor. -/
theorem step0_cursor (c : Container) (cur : Int) (j n : Nat) :
    xstepper.step ⟨c, cur, 0⟩ j n = ⟨c, cur + (n : Int) * (c.strides.getD j 0 : Int), 0⟩ := by
  rw [xstepper.step, if_pos (Nat.zero_le j)]
  simp

/-- One iterator increment over the canonical container from a valid
position: either every dimension carried, the cursor moved to the end
position and the position was the last one, or the iterator is at the
row-major successor index with linearization one higher. -/
theorem inc_iterAt (sh ix : List Nat) (hlen : ix.length = sh.length)
    (hvalid : ∀ t, t < sh.length → ix.getD t 0 < sh.getD t 0) :
    ((xiterator.inc xstepperOps (iterAt sh ix)).m_it
        = (⟨canonContainer sh, (sh.prod : Int), 0⟩ : xstepper)
      ∧ (xiterator.inc xstepperOps (iterAt sh ix)).m_shape = sh
      ∧ lin ix sh + 1 = sh.prod)
    ∨ (∃ ix2, xiterator.inc xstepperOps (iterAt sh ix) = iterAt sh ix2
        ∧ ix2.length = sh.length
        ∧ (∀ t, t < sh.length → ix2.getD t 0 < sh.getD t 0)
        ∧ lin ix2 sh = lin ix sh + 1) := by
  have hinc : xiterator.inc xstepperOps (iterAt sh ix)
      = ⟨(inc_loop xstepperOps sh ⟨canonContainer sh, (lin ix sh : Int), 0⟩ ix ix.length).1,
         sh,
         (inc_loop xstepperOps sh ⟨canonContainer sh, (lin ix sh : Int), 0⟩ ix ix.length).2⟩ := rfl
  have hrun := inc_loop_run sh ix.length xstepperOps
    ⟨canonContainer sh, (lin ix sh : Int), 0⟩ ix
  by_cases hall : ∀ t, t < sh.length → ix.getD t 0 + 1 = sh.getD t 0
  · left
    rcases Nat.eq_zero_or_pos sh.length with hk | hk
    · have hsh0 : sh = [] := List.length_eq_zero.mp hk
      subst hsh0
      have hix0 : ix = [] := List.length_eq_zero.mp (by omega)
      subst hix0
      exact ⟨by decide, rfl, by decide⟩
    · have hfl := inc_loop_full sh ix.length (by omega) ix [] (le_refl _)
        (fun t ht => hall t (by omega))
      refine ⟨?_, by rw [hinc], full_lin ix sh hlen hall⟩
      rw [hinc]
      show (inc_loop xstepperOps sh _ ix ix.length).1 = _
      rw [hrun, hfl]
      show runActions xstepperOps ⟨canonContainer sh, (lin ix sh : Int), 0⟩
          ([] ++ resetsDown 1 (ix.length - 1) ++ [StepAction.to_end]) = _
      rw [List.nil_append, runActions_append, resets_cursor]
      show xstepper.to_end _ = _
      rw [xstepper.to_end, canon_data_length]
  · right
    push_neg at hall
    obtain ⟨t0, ht0k, ht0⟩ := hall
    have hk : 0 < sh.length := by omega
    obtain ⟨j, hjlt, hPj, hfull⟩ :
        ∃ j, j < sh.length ∧ ix.getD j 0 + 1 ≠ sh.getD j 0 ∧
          (∀ t, j < t → t < sh.length → ix.getD t 0 + 1 = sh.getD t 0) := by
      refine ⟨Nat.findGreatest (fun t => ix.getD t 0 + 1 ≠ sh.getD t 0) (sh.length - 1),
        ?_, ?_, ?_⟩
      · have h := Nat.findGreatest_le
          (P := fun t => ix.getD t 0 + 1 ≠ sh.getD t 0) (sh.length - 1)
        omega
      · exact Nat.findGreatest_spec
          (P := fun t => ix.getD t 0 + 1 ≠ sh.getD t 0)
          (by omega : t0 ≤ sh.length - 1) ht0
      · intro t htj htk
        by_contra hc
        exact Nat.findGreatest_is_greatest htj (by omega) hc
    have hstop := inc_loop_stop sh j ix.length (by omega) ix [] (le_refl _)
      hPj (fun t ht hti => hfull t ht (by omega))
    have hvl := succ_index_valid sh ix j hlen hvalid hjlt hPj
    have hlin2 := lin_succ_at sh ix j hlen hjlt hfull
    refine ⟨ix.take j ++ (ix.getD j 0 + 1) :: List.replicate (sh.length - 1 - j) 0,
      ?_, hvl.1, hvl.2, hlin2⟩
    rw [hinc, hrun, hstop, List.drop_length, List.nil_append, hlen]
    simp only [iterAt, xiterator.mk.injEq]
    refine ⟨?_, trivial, ?_⟩
    · rw [runActions_append, resets_cursor]
      show xstepper.step _ j 1 = _
      rw [step0_cursor, canon_strides, canon_backstrides, rmStrides_getD sh j hjlt]
      rw [rm_telescope sh (sh.length - 1 - j) (j + 1) (by omega)
        (fun u _ hu2 => by have := hvalid u hu2; omega)]
      rw [hlin2]
      simp only [xstepper.mk.injEq]
      refine ⟨trivial, ?_, trivial⟩
      push_cast
      ring
    · simp

/-- An iterator whose cursor is not at the end position is not equal
to the end-constructed iterator. -/
theorem iterAt_ne_end (sh ix : List Nat) (h : lin ix sh ≠ sh.prod) :
    xiterator.equal (iterAt sh ix) (endIter sh) = false := by
  have hne : (⟨canonContainer sh, (lin ix sh : Int), 0⟩ : xstepper)
      ≠ (beginStepper sh).to_end := by
    intro hq
    have hcur : (lin ix sh : Int) = ((canonContainer sh).data.length : Int) :=
      congrArg xstepper.m_it hq
    rw [canon_data_length] at hcur
    exact h (by exact_mod_cast hcur)
  show (decide ((iterAt sh ix).m_it = (endIter sh).m_it) && _) = false
  rw [show (iterAt sh ix).m_it = ⟨canonContainer sh, (lin ix sh : Int), 0⟩ from rfl,
    show (endIter sh).m_it = (beginStepper sh).to_end from rfl,
    decide_eq_false hne]
  simp

/-- An iterator whose stepper sits at cursor shape-product over the
canonical container is equal to the end-constructed iterator,
whatever its internal index vector. -/
theorem at_prod_equal_end (sh w : List Nat) :
    xiterator.equal
      (⟨⟨canonContainer sh, (sh.prod : Int), 0⟩, sh, w⟩ : xiterator xstepper)
      (endIter sh) = true := by
  have hm : (⟨canonContainer sh, (sh.prod : Int), 0⟩ : xstepper)
      = (beginStepper sh).to_end := by
    show _ = xstepper.to_end ⟨canonContainer sh, 0, 0⟩
    rw [xstepper.to_end, canon_data_length]
  show (decide ((⟨canonContainer sh, (sh.prod : Int), 0⟩ : xstepper)
      = (beginStepper sh).to_end) && decide (sh = sh)) = true
  rw [hm]
  simp

/-- The begin iterator is the positioned iterator at the zero index. -/
theorem beginIter_eq_iterAt (sh : List Nat) :
    beginIter sh = iterAt sh (List.replicate sh.length 0) := by
  simp only [beginIter, mkXIterator, beginStepper, iterAt, lin_replicate_zero]
  simp

/-- Shapes with positive product have positive extents everywhere. -/
theorem prod_pos_extents : ∀ (sh : List Nat), 0 < sh.prod →
    ∀ t, t < sh.length → 0 < sh.getD t 0 := by
  intro sh
  induction sh with
  | nil => intro _ t ht; simp at ht
  | cons s ss ih =>
    intro hp t ht
    rw [List.prod_cons] at hp
    have hs : s ≠ 0 := by
      intro h0
      rw [h0] at hp
      simp at hp
    have hss : 0 < ss.prod := by
      rcases Nat.eq_zero_or_pos ss.prod with h0 | h0
      · rw [h0] at hp; simp at hp
      · exact h0
    cases t with
    | zero => simpa using Nat.pos_of_ne_zero hs
    | succ n =>
      simp only [List.getD_cons_succ]
      exact ih hss n (by simpa using ht)

/-- Counting stops immediately at an iterator equal to the end. -/
theorem countPositions_zero_of_equal (e it : xiterator xstepper) (f : Nat)
    (h : xiterator.equal it e = true) :
    countPositions e (f + 1) it = 0 := by
  show (if xiterator.equal it e then 0
    else countPositions e f (xiterator.inc xstepperOps it) + 1) = 0
  rw [h]
  simp

/-- The remaining-count induction: from a valid position whose
linearization leaves n+1 positions, the traversal dereferences
exactly n+1 more times before meeting the end iterator. -/
theorem count_from (sh : List Nat) : ∀ (n : Nat) (ix : List Nat),
    ix.length = sh.length →
    (∀ t, t < sh.length → ix.getD t 0 < sh.getD t 0) →
    lin ix sh + (n + 1) = sh.prod →
    ∀ fuel, n + 2 ≤ fuel →
    countPositions (endIter sh) fuel (iterAt sh ix) = n + 1 := by
  intro n
  induction n with
  | zero =>
    intro ix hlen hvalid hlin fuel hfuel
    obtain ⟨f, rfl⟩ : ∃ f, fuel = f + 1 := ⟨fuel - 1, by omega⟩
    have hne : xiterator.equal (iterAt sh ix) (endIter sh) = false :=
      iterAt_ne_end sh ix (by omega)
    show (if xiterator.equal (iterAt sh ix) (endIter sh) then 0
      else countPositions (endIter sh) f (xiterator.inc xstepperOps (iterAt sh ix)) + 1) = 1
    rw [hne]
    simp only [Bool.false_eq_true, if_false]
    obtain ⟨f', rfl⟩ : ∃ f', f = f' + 1 := ⟨f - 1, by omega⟩
    rcases inc_iterAt sh ix hlen hvalid with ⟨hmit, hmsh, _⟩ | ⟨ix2, heq, _, hval2, hlin2⟩
    · have hinc : xiterator.inc xstepperOps (iterAt sh ix)
          = ⟨⟨canonContainer sh, (sh.prod : Int), 0⟩, sh,
             (xiterator.inc xstepperOps (iterAt sh ix)).m_index⟩ := by
        cases hii : xiterator.inc xstepperOps (iterAt sh ix)
        rw [hii] at hmit hmsh
        simp only at hmit hmsh
        rw [hmit, hmsh]
      rw [hinc, countPositions_zero_of_equal (endIter sh) _ f'
        (at_prod_equal_end sh ((xiterator.inc xstepperOps (iterAt sh ix)).m_index))]
    · have hlt := lin_lt_prod ix2 sh (by omega) hval2
      omega
  | succ m ih =>
    intro ix hlen hvalid hlin fuel hfuel
    obtain ⟨f, rfl⟩ : ∃ f, fuel = f + 1 := ⟨fuel - 1, by omega⟩
    have hne : xiterator.equal (iterAt sh ix) (endIter sh) = false :=
      iterAt_ne_end sh ix (by omega)
    show (if xiterator.equal (iterAt sh ix) (endIter sh) then 0
      else countPositions (endIter sh) f (xiterator.inc xstepperOps (iterAt sh ix)) + 1)
      = m + 1 + 1
    rw [hne]
    simp only [Bool.false_eq_true, if_false]
    rcases inc_iterAt sh ix hlen hvalid with ⟨_, _, hlinp⟩ | ⟨ix2, heq, hlen2, hval2, hlin2⟩
    · omega
    · rw [heq, ih ix2 hlen2 hval2 (by omega) f (by omega)]

/-- Iterators with unequal subiterators are unequal. -/
theorem equal_false_of_mit_ne {It : Type} [DecidableEq It] (a b : xiterator It)
    (h : a.m_it ≠ b.m_it) : xiterator.equal a b = false := by
  show (decide (a.m_it = b.m_it) && decide (a.m_shape = b.m_shape)) = false
  rw [decide_eq_false h]
  simp

/-- Claim C2: over the canonical row-major container of any shape, a
complete forward traversal from the zero-initialized index performs
exactly the product of the extents many dereferences before the
iterator compares equal to the independently end-constructed
iterator. -/
theorem c2_full_traversal_count (shape : List Nat) :
    countPositions (endIter shape) (shape.prod + 1) (beginIter shape) = shape.prod := by
  rcases Nat.eq_zero_or_pos shape.prod with h0 | hpos
  · have hb : beginIter shape
        = ⟨⟨canonContainer shape, (shape.prod : Int), 0⟩, shape,
           List.replicate shape.length 0⟩ := by
      simp [beginIter, mkXIterator, beginStepper, h0]
    rw [h0, hb, countPositions_zero_of_equal (endIter shape) _ 0
      (at_prod_equal_end shape (List.replicate shape.length 0))]
  · have hposext := prod_pos_extents shape hpos
    have hvalid : ∀ t, t < shape.length →
        (List.replicate shape.length 0).getD t 0 < shape.getD t 0 := by
      intro t ht
      rw [lgetD_replicate_zero]
      exact hposext t ht
    obtain ⟨n, hn⟩ : ∃ n, shape.prod = n + 1 := ⟨shape.prod - 1, by omega⟩
    rw [beginIter_eq_iterAt, hn]
    exact count_from shape n (List.replicate shape.length 0)
      (by rw [List.length_replicate]) hvalid
      (by rw [lin_replicate_zero]; omega) (n + 2) (le_refl _)

/-- Claim C7: two iterators over the same canonical container and
shape with identical state compare equal, and incrementing exactly one
of the two breaks equality, at every valid (non-end) position. -/
theorem c7_increment_breaks_equality (shape ix : List Nat)
    (hlen : ix.length = shape.length)
    (hvalid : ∀ t, t < shape.length → ix.getD t 0 < shape.getD t 0) :
    xiterator.equal (iterAt shape ix) (iterAt shape ix) = true
    ∧ xiterator.equal (xiterator.inc xstepperOps (iterAt shape ix)) (iterAt shape ix)
        = false
    ∧ xiterator.equal (iterAt shape ix) (xiterator.inc xstepperOps (iterAt shape ix))
        = false := by
  have hlt := lin_lt_prod ix shape hlen hvalid
  rcases inc_iterAt shape ix hlen hvalid with ⟨hmit, _, _⟩ | ⟨ix2, heq, _, _, hlin2⟩
  · refine ⟨by simp [xiterator.equal], ?_, ?_⟩
    · apply equal_false_of_mit_ne
      rw [hmit]
      intro hq
      have h2 : (shape.prod : Int) = (lin ix shape : Int) := congrArg xstepper.m_it hq
      have h3 : shape.prod = lin ix shape := by exact_mod_cast h2
      omega
    · apply equal_false_of_mit_ne
      rw [hmit]
      intro hq
      have h2 : (lin ix shape : Int) = (shape.prod : Int) := congrArg xstepper.m_it hq
      have h3 : lin ix shape = shape.prod := by exact_mod_cast h2
      omega
  · refine ⟨by simp [xiterator.equal], ?_, ?_⟩
    · apply equal_false_of_mit_ne
      rw [heq]
      intro hq
      have h2 : (lin ix2 shape : Int) = (lin ix shape : Int) := congrArg xstepper.m_it hq
      have h3 : lin ix2 shape = lin ix shape := by exact_mod_cast h2
      omega
    · apply equal_false_of_mit_ne
      rw [heq]
      intro hq
      have h2 : (lin ix shape : Int) = (lin ix2 shape : Int) := congrArg xstepper.m_it hq
      have h3 : lin ix shape = lin ix2 shape := by exact_mod_cast h2
      omega

/-- Witness for C7 at shape [2] and position [0]. -/
theorem c7_increment_breaks_equality_witness :
    (([0] : List Nat).length = ([2] : List Nat).length)
    ∧ (∀ t, t < ([2] : List Nat).length →
        ([0] : List Nat).getD t 0 < ([2] : List Nat).getD t 0)
    ∧ xiterator.equal (iterAt [2] [0]) (iterAt [2] [0]) = true
    ∧ xiterator.equal (xiterator.inc xstepperOps (iterAt [2] [0])) (iterAt [2] [0])
        = false
    ∧ xiterator.equal (iterAt [2] [0]) (xiterator.inc xstepperOps (iterAt [2] [0]))
        = false := by
  have h := c7_increment_breaks_equality [2] [0] rfl (by decide)
  exact ⟨rfl, by decide, h.1, h.2.1, h.2.2⟩

/-- Claim C5: with offset o > 0, step and reset on a dimension below
the offset leave the stepper (strided or indexed) entirely unchanged,
so the dereference result is unchanged; on a dimension at or above the
offset they produce exactly the state change of an offset-0 stepper
operating on dimension dim - o. -/
theorem c5_offset_dimension_behavior (c : Container) (cur : Int) (o dim n : Nat)
    (e : Expression) (ix : List Nat) (_ho : 0 < o) :
    (dim < o →
      xstepper.step ⟨c, cur, o⟩ dim n = ⟨c, cur, o⟩
      ∧ xstepper.reset ⟨c, cur, o⟩ dim = ⟨c, cur, o⟩
      ∧ xstepper.deref (xstepper.step ⟨c, cur, o⟩ dim n) = xstepper.deref ⟨c, cur, o⟩
      ∧ xstepper.deref (xstepper.reset ⟨c, cur, o⟩ dim) = xstepper.deref ⟨c, cur, o⟩
      ∧ xindexed_stepper.step ⟨e, ix, o⟩ dim n = ⟨e, ix, o⟩
      ∧ xindexed_stepper.reset ⟨e, ix, o⟩ dim = ⟨e, ix, o⟩
      ∧ xindexed_stepper.deref (xindexed_stepper.step ⟨e, ix, o⟩ dim n)
          = xindexed_stepper.deref ⟨e, ix, o⟩)
    ∧ (o ≤ dim →
      (xstepper.step ⟨c, cur, o⟩ dim n).m_it = (xstepper.step ⟨c, cur, 0⟩ (dim - o) n).m_it
      ∧ (xstepper.reset ⟨c, cur, o⟩ dim).m_it = (xstepper.reset ⟨c, cur, 0⟩ (dim - o)).m_it
      ∧ (xindexed_stepper.step ⟨e, ix, o⟩ dim n).m_index
          = (xindexed_stepper.step ⟨e, ix, 0⟩ (dim - o) n).m_index
      ∧ (xindexed_stepper.reset ⟨e, ix, o⟩ dim).m_index
          = (xindexed_stepper.reset ⟨e, ix, 0⟩ (dim - o)).m_index) := by
  constructor
  · intro hlt
    have hng : ¬ (dim ≥ o) := by omega
    refine ⟨?_, ?_, ?_, ?_, ?_, ?_, ?_⟩ <;>
      simp [xstepper.step, xstepper.reset, xindexed_stepper.step,
        xindexed_stepper.reset, hng]
  · intro hge
    refine ⟨?_, ?_, ?_, ?_⟩ <;>
      simp [xstepper.step, xstepper.reset, xindexed_stepper.step,
        xindexed_stepper.reset, hge]

/-- Witness for C5: a strided no-op at dim 0 below offset 1, and the
offset-0 correspondence for a step at dim 2 with offset 1. -/
theorem c5_offset_dimension_behavior_witness :
    (0 < 1)
    ∧ xstepper.step ⟨⟨0, [5], [4], [7], [9]⟩, 3, 1⟩ 0 2 = ⟨⟨0, [5], [4], [7], [9]⟩, 3, 1⟩
    ∧ (xstepper.step ⟨⟨0, [5], [4], [7], [9]⟩, 3, 1⟩ 2 2).m_it
        = (xstepper.step ⟨⟨0, [5], [4], [7], [9]⟩, 3, 0⟩ (2 - 1) 2).m_it :=
  ⟨by decide,
   ((c5_offset_dimension_behavior ⟨0, [5], [4], [7], [9]⟩ 3 1 0 2
      ⟨0, [3], fun _ => 0⟩ [0] (by decide)).1 (by decide)).1,
   ((c5_offset_dimension_behavior ⟨0, [5], [4], [7], [9]⟩ 3 1 2 2
      ⟨0, [3], fun _ => 0⟩ [0] (by decide)).2 (by decide)).1⟩

/-- Counterexample to C8 as stated: over the rank-0 expression, the
begin-constructed indexed stepper is at a (vacuously) valid position
yet compares equal to the end-constructed stepper over the same
expression and offset, because for the empty shape the zero index
already equals the shape. -/
theorem c8_rank0_counterexample :
    xindexed_stepper.equal (mkIndexed exprRank0 0 false) (mkIndexed exprRank0 0 true) = true
    ∧ (mkIndexed exprRank0 0 false).m_index
        = List.replicate exprRank0.shape.length 0 := by
  exact ⟨by decide, by decide⟩

/-- Claim C8 (amended with rank at least 1): to_end() sets the indexed
stepper's index vector equal to the expression's shape, and for
expressions of rank at least 1 no stepper at a componentwise valid
position compares equal to an end-positioned stepper over the same
expression and offset. -/
theorem c8_amended_to_end_not_valid (st stE : xindexed_stepper)
    (_hid : stE.p_e.eid = st.p_e.eid) (_hoff : stE.m_offset = st.m_offset)
    (hend : stE.m_index = st.p_e.shape)
    (hrank : 1 ≤ st.p_e.shape.length)
    (hlen : st.m_index.length = st.p_e.shape.length)
    (hvalid : ∀ t, t < st.p_e.shape.length →
      st.m_index.getD t 0 < st.p_e.shape.getD t 0) :
    (xindexed_stepper.to_end st).m_index = st.p_e.shape
    ∧ xindexed_stepper.equal st stE = false := by
  refine ⟨rfl, ?_⟩
  have hne : st.m_index ≠ stE.m_index := by
    rw [hend]
    intro hq
    have h0 := hvalid 0 (by omega)
    rw [hq] at h0
    exact lt_irrefl _ h0
  show (decide (st.p_e.eid = stE.p_e.eid) && decide (st.m_index = stE.m_index)
    && decide (st.m_offset = stE.m_offset)) = false
  rw [decide_eq_false hne]
  simp

/-- Witness for the amended C8 over the rank-1 expression of shape
[2]: the begin stepper at index [0] never equals the end stepper at
index [2]. -/
theorem c8_amended_to_end_not_valid_witness :
    (1 ≤ (mkIndexed exprRank1 0 false).p_e.shape.length)
    ∧ (∀ t, t < (mkIndexed exprRank1 0 false).p_e.shape.length →
        (mkIndexed exprRank1 0 false).m_index.getD t 0
          < (mkIndexed exprRank1 0 false).p_e.shape.getD t 0)
    ∧ (xindexed_stepper.to_end (mkIndexed exprRank1 0 false)).m_index
        = (mkIndexed exprRank1 0 false).p_e.shape
    ∧ xindexed_stepper.equal (mkIndexed exprRank1 0 false) (mkIndexed exprRank1 0 true)
        = false := by
  have h := c8_amended_to_end_not_valid (mkIndexed exprRank1 0 false)
    (mkIndexed exprRank1 0 true) (by decide) (by decide) (by decide)
    (by decide) (by decide) (by decide)
  exact ⟨by decide, by decide, h.1, h.2⟩

/-- Repeated single steps below the offset are the identity. -/
theorem stepN_lt (c : Container) (o dim : Nat) (h : dim < o) :
    ∀ (m : Nat) (cur : Int), stepN dim m ⟨c, cur, o⟩ = ⟨c, cur, o⟩ := by
  intro m
  induction m with
  | zero => intro cur; rfl
  | succ k ih =>
    intro cur
    show stepN dim k (xstepper.step ⟨c, cur, o⟩ dim 1) = _
    rw [xstepper.step, if_neg (show ¬ dim ≥ o by omega)]
    exact ih cur

/-- Repeated single steps at or above the offset advance the cursor by
m times the stride. -/
theorem stepN_ge (c : Container) (o dim : Nat) (h : o ≤ dim) :
    ∀ (m : Nat) (cur : Int), stepN dim m ⟨c, cur, o⟩
      = ⟨c, cur + (m : Int) * (c.strides.getD (dim - o) 0 : Int), o⟩ := by
  intro m
  induction m with
  | zero => intro cur; simp [stepN]
  | succ k ih =>
    intro cur
    show stepN dim k (xstepper.step ⟨c, cur, o⟩ dim 1) = _
    rw [xstepper.step, if_pos h, ih]
    congr 1
    push_cast
    ring

/-- Repeated single backward steps below the offset are the identity. -/
theorem stepBackN_lt (c : Container) (o dim : Nat) (h : dim < o) :
    ∀ (m : Nat) (cur : Int), stepBackN dim m ⟨c, cur, o⟩ = ⟨c, cur, o⟩ := by
  intro m
  induction m with
  | zero => intro cur; rfl
  | succ k ih =>
    intro cur
    show stepBackN dim k (xstepper.step_back ⟨c, cur, o⟩ dim 1) = _
    rw [xstepper.step_back, if_neg (show ¬ dim ≥ o by omega)]
    exact ih cur

/-- Repeated single backward steps at or above the offset retract the
cursor by m times the stride. -/
theorem stepBackN_ge (c : Container) (o dim : Nat) (h : o ≤ dim) :
    ∀ (m : Nat) (cur : Int), stepBackN dim m ⟨c, cur, o⟩
      = ⟨c, cur - (m : Int) * (c.strides.getD (dim - o) 0 : Int), o⟩ := by
  intro m
  induction m with
  | zero => intro cur; simp [stepBackN]
  | succ k ih =>
    intro cur
    show stepBackN dim k (xstepper.step_back ⟨c, cur, o⟩ dim 1) = _
    rw [xstepper.step_back, if_pos h, ih]
    congr 1
    push_cast
    ring

/-- Claim C9: when backstride[i] = stride[i] * (shape[i] - 1), taking
shape[i] - 1 single steps of dimension i from its start and then
calling reset(i) returns the stepper exactly to its starting state, so
the dereferenced value equals the starting one, and reset(i) there is
equivalent to shape[i] - 1 single backward steps. -/
theorem c9_reset_returns_to_start (c : Container) (cur : Int) (o dim : Nat)
    (hbs : c.backstrides.getD (dim - o) 0
      = c.strides.getD (dim - o) 0 * (c.shape.getD (dim - o) 0 - 1)) :
    xstepper.reset (stepN dim (c.shape.getD (dim - o) 0 - 1) ⟨c, cur, o⟩) dim
        = ⟨c, cur, o⟩
    ∧ xstepper.reset (stepN dim (c.shape.getD (dim - o) 0 - 1) ⟨c, cur, o⟩) dim
        = stepBackN dim (c.shape.getD (dim - o) 0 - 1)
            (stepN dim (c.shape.getD (dim - o) 0 - 1) ⟨c, cur, o⟩)
    ∧ xstepper.deref
        (xstepper.reset (stepN dim (c.shape.getD (dim - o) 0 - 1) ⟨c, cur, o⟩) dim)
        = xstepper.deref ⟨c, cur, o⟩ := by
  by_cases h : o ≤ dim
  · have h1 : xstepper.reset (stepN dim (c.shape.getD (dim - o) 0 - 1) ⟨c, cur, o⟩) dim
        = ⟨c, cur, o⟩ := by
      rw [stepN_ge c o dim h, xstepper.reset, if_pos h]
      simp only [xstepper.mk.injEq]
      refine ⟨trivial, ?_, trivial⟩
      rw [hbs]
      push_cast
      ring
    have h2 : stepBackN dim (c.shape.getD (dim - o) 0 - 1)
        (stepN dim (c.shape.getD (dim - o) 0 - 1) ⟨c, cur, o⟩) = ⟨c, cur, o⟩ := by
      rw [stepN_ge c o dim h, stepBackN_ge c o dim h]
      simp only [xstepper.mk.injEq]
      refine ⟨trivial, ?_, trivial⟩
      ring
    exact ⟨h1, by rw [h1, h2], by rw [h1]⟩
  · have hlt : dim < o := by omega
    have h1 : xstepper.reset (stepN dim (c.shape.getD (dim - o) 0 - 1) ⟨c, cur, o⟩) dim
        = ⟨c, cur, o⟩ := by
      rw [stepN_lt c o dim hlt, xstepper.reset, if_neg (show ¬ dim ≥ o by omega)]
    have h2 : stepBackN dim (c.shape.getD (dim - o) 0 - 1)
        (stepN dim (c.shape.getD (dim - o) 0 - 1) ⟨c, cur, o⟩) = ⟨c, cur, o⟩ := by
      rw [stepN_lt c o dim hlt, stepBackN_lt c o dim hlt]
    exact ⟨h1, by rw [h1, h2], by rw [h1]⟩

/-- Witness for C9 over the canonical [3,3] container at dimension 1:
two steps forward then reset(1) is the original stepper. -/
theorem c9_reset_returns_to_start_witness :
    ((canonContainer [3, 3]).backstrides.getD (1 - 0) 0
      = (canonContainer [3, 3]).strides.getD (1 - 0) 0
          * ((canonContainer [3, 3]).shape.getD (1 - 0) 0 - 1))
    ∧ xstepper.reset
        (stepN 1 ((canonContainer [3, 3]).shape.getD (1 - 0) 0 - 1)
          ⟨canonContainer [3, 3], 0, 0⟩) 1
        = ⟨canonContainer [3, 3], 0, 0⟩ :=
  ⟨by decide,
   (c9_reset_returns_to_start (canonContainer [3, 3]) 0 0 1 (by decide)).1⟩
